import Mathlib

/-!
Verification of the bucketed hash map in `src/hashMap.js` (class `HashMap`).

The JavaScript class is shallowly embedded: the mutable object becomes a
`HashMap` structure that each operation takes and returns, JS `null` buckets
become `Option (List Entry)`, JS numbers used as sizes and bucket counts
become `Nat`, and the real-valued load factor becomes `Rat`.  Values stored in
the map are modelled by a small dynamic type `Value` with a `null`
constructor, since the code uses `null` both as the "not found" result of
`get` and as a possible stored payload.
-/

namespace OdinHashMap

/-- A dynamically typed JavaScript value as stored in the map.  `Value.null`
is the sentinel that `get` also returns on a missing key. -/
inductive Value where
  | null : Value
  | str : String → Value
  | num : Int → Value
  | bool : Bool → Value
deriving DecidableEq

/-- A key/value entry, as the object literal `{ key: key, value: value }`. -/
structure Entry where
  key : String
  value : Value
deriving DecidableEq

/-- A bucket slot: `none` is a JS `null` slot, `some l` is an array of
entries. -/
abbrev Bucket := Option (List Entry)

/-- The state of a `HashMap` object: fields `bucketCount`, `buckets`,
`size` and `maxLoadFactor` of the JS class. -/
structure HashMap where
  bucketCount : Nat
  buckets : List Bucket
  size : Nat
  maxLoadFactor : Rat
deriving DecidableEq

/-- The `constructor(initialCapacity = 16, maxLoadFactor = 0.75)`: stores the
arguments and fills the bucket array with `null`.  No validation happens. -/
def mkHashMap (initialCapacity : Nat := 16) (maxLoadFactor : Rat := 3/4) :
    HashMap :=
  { bucketCount := initialCapacity
    buckets := List.replicate initialCapacity none
    size := 0
    maxLoadFactor := maxLoadFactor }

/-- `hash(key, buckets)`: iterate over the characters of `key`, with
`hashCode = (31 * hashCode + key.charCodeAt(i)) % buckets` at every step. -/
def hash (key : String) (buckets : Nat) : Nat :=
  key.data.foldl (fun hashCode c => (31 * hashCode + c.toNat) % buckets) 0

/-- `loadFactor()`: `this.size / this.bucketCount` as a rational number. -/
def loadFactor (m : HashMap) : Rat :=
  (m.size : Rat) / (m.bucketCount : Rat)

/-- The entry list held by a bucket slot (`null` holds no entries). -/
def bucketEntries : Bucket → List Entry
  | none => []
  | some l => l

/-- The bucket list at index `i` of a bucket array (empty when the slot is
`null` or out of range). -/
def bucketAt (bs : List Bucket) (i : Nat) : List Entry :=
  bucketEntries (bs.getD i none)

/-- All entries of a bucket array, walking buckets in index order and each
bucket front to back — the walk shared by `resize`, `keys`, `values` and
`entries`. -/
def allEntries : List Bucket → List Entry
  | [] => []
  | b :: rest => bucketEntries b ++ allEntries rest

/-- One step of the rehash loop in `resize()`: compute the entry's new index
against `newCount`, create the bucket if the slot is `null`, and push. -/
def insertEntryRehash (acc : List Bucket) (newCount : Nat) (e : Entry) :
    List Bucket :=
  match acc.getD (hash e.key newCount) none with
  | none => acc.set (hash e.key newCount) (some [e])
  | some bucket => acc.set (hash e.key newCount) (some (bucket ++ [e]))

/-- Rehash a list of entries into an accumulator bucket array, in order. -/
def rehashAll (es : List Entry) (n : Nat) (acc : List Bucket) : List Bucket :=
  es.foldl (fun acc e => insertEntryRehash acc n e) acc

/-- The body of the `forEach` over old buckets in `resize()`: skip `null`
slots, rehash every entry of a live bucket. -/
def resizeStep (newCount : Nat) (acc : List Bucket) (b : Bucket) :
    List Bucket :=
  match b with
  | none => acc
  | some bucket => rehashAll bucket newCount acc

/-- `resize()`: double the bucket count, build a fresh `null`-filled array of
the new size, rehash every existing entry into it, and install both. -/
def resize (m : HashMap) : HashMap :=
  { m with
    buckets := m.buckets.foldl (resizeStep (m.bucketCount * 2))
      (List.replicate (m.bucketCount * 2) none)
    bucketCount := m.bucketCount * 2 }

/-- The scan loop of `set`: walk the bucket looking for a matching key; on a
match overwrite that entry's value in place and stop (`some` result);
otherwise report `none` so the caller appends. -/
def updateBucket : List Entry → String → Value → Option (List Entry)
  | [], _, _ => none
  | e :: rest, key, value =>
    if e.key = key then some ({ e with value := value } :: rest)
    else
      match updateBucket rest key value with
      | some rest2 => some (e :: rest2)
      | none => none

/-- `set` after the load-factor check: compute the index, materialise the
bucket (a `null` slot scans as empty), overwrite in place if the key exists,
else push a new entry and increment `size`. -/
def setBody (m : HashMap) (key : String) (value : Value) : HashMap :=
  match updateBucket (bucketAt m.buckets (hash key m.bucketCount)) key value with
  | some bucket2 =>
    { m with buckets := m.buckets.set (hash key m.bucketCount) (some bucket2) }
  | none =>
    { m with
      buckets := m.buckets.set (hash key m.bucketCount)
        (some (bucketAt m.buckets (hash key m.bucketCount) ++
          [{ key := key, value := value }]))
      size := m.size + 1 }

/-- `set(key, value)`: resize first when `loadFactor() >= maxLoadFactor`,
then insert or overwrite. -/
def set (m : HashMap) (key : String) (value : Value) : HashMap :=
  setBody (if loadFactor m ≥ m.maxLoadFactor then resize m else m) key value

/-- `get(key)`: scan the key's bucket, returning the first matching entry's
value, or `null` when the slot is `null` or no entry matches. -/
def get (m : HashMap) (key : String) : Value :=
  match m.buckets.getD (hash key m.bucketCount) none with
  | none => Value.null
  | some bucket =>
    match bucket.find? (fun e => e.key == key) with
    | some e => e.value
    | none => Value.null

/-- `has(key)`: `this.get(key) !== null`. -/
def has (m : HashMap) (key : String) : Bool :=
  get m key != Value.null

/-- The scan loop of `remove`: splice out the first entry with a matching
key (`some` result), or report `none` when the key is absent. -/
def removeFromBucket : List Entry → String → Option (List Entry)
  | [], _ => none
  | e :: rest, key =>
    if e.key = key then some rest
    else
      match removeFromBucket rest key with
      | some rest2 => some (e :: rest2)
      | none => none

/-- `remove(key)`: splice the entry out of its bucket and decrement `size`,
returning `true`; return `false` and leave the map unchanged when absent. -/
def remove (m : HashMap) (key : String) : HashMap × Bool :=
  match m.buckets.getD (hash key m.bucketCount) none with
  | none => (m, false)
  | some bucket =>
    match removeFromBucket bucket key with
    | some bucket2 =>
      ({ m with
          buckets := m.buckets.set (hash key m.bucketCount) (some bucket2)
          size := m.size - 1 }, true)
    | none => (m, false)

/-- `length()`: return `this.size`. -/
def length (m : HashMap) : Nat := m.size

/-- `clear()`: `this.buckets.fill(null)` and `this.size = 0`; the bucket
count is untouched. -/
def clear (m : HashMap) : HashMap :=
  { m with buckets := m.buckets.map (fun _ => none), size := 0 }

/-- The `forEach` body of `keys()`: skip `null` slots, push every key. -/
def keysStep (acc : List String) (b : Bucket) : List String :=
  match b with
  | none => acc
  | some bucket => bucket.foldl (fun acc e => acc ++ [e.key]) acc

/-- `keys()`: collect every entry's key, walking buckets in index order. -/
def keys (m : HashMap) : List String :=
  m.buckets.foldl keysStep []

/-- The `forEach` body of `values()`: skip `null` slots, push every value. -/
def valuesStep (acc : List Value) (b : Bucket) : List Value :=
  match b with
  | none => acc
  | some bucket => bucket.foldl (fun acc e => acc ++ [e.value]) acc

/-- `values()`: collect every entry's value, walking buckets in index
order. -/
def values (m : HashMap) : List Value :=
  m.buckets.foldl valuesStep []

/-- The `forEach` body of `entries()`: skip `null` slots, push every
`[key, value]` pair. -/
def entriesStep (acc : List (String × Value)) (b : Bucket) :
    List (String × Value) :=
  match b with
  | none => acc
  | some bucket => bucket.foldl (fun acc e => acc ++ [(e.key, e.value)]) acc

/-- `entries()`: collect every entry as a pair, walking buckets in index
order. -/
def entries (m : HashMap) : List (String × Value) :=
  m.buckets.foldl entriesStep []

/-- Run a sequence of `set` calls from the left. -/
def setAll (m : HashMap) (l : List (String × Value)) : HashMap :=
  l.foldl (fun m p => set m p.1 p.2) m

/-- The flat list of all entries currently stored in the map. -/
def toList (m : HashMap) : List Entry :=
  allEntries m.buckets

/-- The map stores key `k` with value `v`. -/
def MapsTo (m : HashMap) (k : String) (v : Value) : Prop :=
  Entry.mk k v ∈ toList m

/-- The map stores some entry for key `k`. -/
def HasKey (m : HashMap) (k : String) : Prop :=
  ∃ v, MapsTo m k v

/-- The data-model invariants of the spec (§3): the bucket array has exactly
`bucketCount` slots, the bucket count is positive, every entry sits in the
bucket its key currently hashes to, no key occurs twice, and `size` equals
the total entry count. -/
structure Inv (m : HashMap) : Prop where
  len_eq : m.buckets.length = m.bucketCount
  pos : 0 < m.bucketCount
  placed : ∀ i, ∀ e ∈ bucketAt m.buckets i, hash e.key m.bucketCount = i
  nodup : ((toList m).map Entry.key).Nodup
  size_eq : m.size = (toList m).length

/-- A constructor as the spec demands it: reject a non-positive bucket count
or a load factor outside `(0, 1]`.  Stated from the spec's words, for
comparison with `mkHashMap`, which performs no such check. -/
def mkHashMapChecked (initialCapacity : Nat) (maxLoadFactor : Rat) :
    Option HashMap :=
  if 0 < initialCapacity ∧ 0 < maxLoadFactor ∧ maxLoadFactor ≤ 1 then
    some (mkHashMap initialCapacity maxLoadFactor)
  else
    none

/-! ### Basic lemmas about the hash function and bucket arrays -/

theorem hash_lt (key : String) {n : Nat} (hn : 0 < n) : hash key n < n := by
  have aux : ∀ (l : List Char) (a : Nat), a < n →
      l.foldl (fun hashCode c => (31 * hashCode + c.toNat) % n) a < n := by
    intro l
    induction l with
    | nil => intro a ha; exact ha
    | cons c rest ih => intro a _; exact ih _ (Nat.mod_lt _ hn)
  exact aux key.data 0 hn

theorem getD_set_self {α : Type} (l : List α) (i : Nat) (x d : α)
    (h : i < l.length) : (l.set i x).getD i d = x := by
  induction l generalizing i with
  | nil => simp at h
  | cons a rest ih =>
    cases i with
    | zero => rfl
    | succ j =>
      simp only [List.set, List.getD_cons_succ]
      exact ih j (by simpa using h)

theorem getD_set_ne {α : Type} (l : List α) (i j : Nat) (x d : α)
    (h : i ≠ j) : (l.set i x).getD j d = l.getD j d := by
  induction l generalizing i j with
  | nil => rfl
  | cons a rest ih =>
    cases i with
    | zero =>
      cases j with
      | zero => exact absurd rfl h
      | succ j' => rfl
    | succ i' =>
      cases j with
      | zero => rfl
      | succ j' =>
        simp only [List.set, List.getD_cons_succ]
        exact ih i' j' (fun hc => h (by rw [hc]))

theorem bucketAt_cons_zero (b : Bucket) (rest : List Bucket) :
    bucketAt (b :: rest) 0 = bucketEntries b := rfl

theorem bucketAt_cons_succ (b : Bucket) (rest : List Bucket) (i : Nat) :
    bucketAt (b :: rest) (i + 1) = bucketAt rest i := rfl

theorem bucketAt_nil (i : Nat) : bucketAt [] i = [] := rfl

theorem allEntries_replicate_none (n : Nat) :
    allEntries (List.replicate n none) = [] := by
  induction n with
  | zero => rfl
  | succ k ih => simpa [List.replicate, allEntries, bucketEntries] using ih

theorem mem_allEntries {bs : List Bucket} {e : Entry} :
    e ∈ allEntries bs ↔ ∃ i, e ∈ bucketAt bs i := by
  induction bs with
  | nil => simp [allEntries, bucketAt, bucketEntries]
  | cons b rest ih =>
    simp only [allEntries, List.mem_append, ih]
    constructor
    · rintro (h | ⟨i, hi⟩)
      · exact ⟨0, h⟩
      · exact ⟨i + 1, hi⟩
    · rintro ⟨i, hi⟩
      cases i with
      | zero => exact Or.inl hi
      | succ i' => exact Or.inr ⟨i', hi⟩

theorem allEntries_getD_decomp (bs : List Bucket) (i : Nat)
    (h : i < bs.length) :
    allEntries bs =
      allEntries (bs.take i) ++ bucketAt bs i ++ allEntries (bs.drop (i + 1)) := by
  induction bs generalizing i with
  | nil => simp at h
  | cons b rest ih =>
    cases i with
    | zero => simp [allEntries, bucketAt_cons_zero]
    | succ j =>
      have hj : j < rest.length := by simpa using h
      simp only [List.take, List.drop, allEntries, bucketAt_cons_succ,
        List.append_assoc]
      rw [ih j hj]
      simp [List.append_assoc]

theorem allEntries_set_decomp (bs : List Bucket) (i : Nat) (b : Bucket)
    (h : i < bs.length) :
    allEntries (bs.set i b) =
      allEntries (bs.take i) ++ bucketEntries b ++ allEntries (bs.drop (i + 1)) := by
  induction bs generalizing i with
  | nil => simp at h
  | cons b0 rest ih =>
    cases i with
    | zero => simp [allEntries]
    | succ j =>
      have hj : j < rest.length := by simpa using h
      simp only [List.set, List.take, List.drop, allEntries, List.append_assoc]
      rw [ih j hj]
      simp [List.append_assoc]

theorem foldl_push {α : Type} (g : Entry → α) (l : List Entry) (a : List α) :
    l.foldl (fun acc e => acc ++ [g e]) a = a ++ l.map g := by
  induction l generalizing a with
  | nil => simp
  | cons e rest ih => simp [ih, List.append_assoc]

/-! ### The enumeration folds are maps over the flat entry list -/

theorem keys_fold (bs : List Bucket) (a : List String) :
    bs.foldl keysStep a = a ++ (allEntries bs).map Entry.key := by
  induction bs generalizing a with
  | nil => simp [allEntries]
  | cons b rest ih =>
    cases b with
    | none => simp [keysStep, allEntries, bucketEntries, ih]
    | some bucket =>
      simp [keysStep, allEntries, bucketEntries, ih, foldl_push,
        List.append_assoc]

theorem keys_eq (m : HashMap) : keys m = (toList m).map Entry.key := by
  simpa [keys, toList] using keys_fold m.buckets []

theorem values_fold (bs : List Bucket) (a : List Value) :
    bs.foldl valuesStep a = a ++ (allEntries bs).map Entry.value := by
  induction bs generalizing a with
  | nil => simp [allEntries]
  | cons b rest ih =>
    cases b with
    | none => simp [valuesStep, allEntries, bucketEntries, ih]
    | some bucket =>
      simp [valuesStep, allEntries, bucketEntries, ih, foldl_push,
        List.append_assoc]

theorem values_eq (m : HashMap) : values m = (toList m).map Entry.value := by
  simpa [values, toList] using values_fold m.buckets []

theorem entries_fold (bs : List Bucket) (a : List (String × Value)) :
    bs.foldl entriesStep a =
      a ++ (allEntries bs).map (fun e => (e.key, e.value)) := by
  induction bs generalizing a with
  | nil => simp [allEntries]
  | cons b rest ih =>
    cases b with
    | none => simp [entriesStep, allEntries, bucketEntries, ih]
    | some bucket =>
      simp [entriesStep, allEntries, bucketEntries, ih, foldl_push,
        List.append_assoc]

theorem entries_eq (m : HashMap) :
    entries m = (toList m).map (fun e => (e.key, e.value)) := by
  simpa [entries, toList] using entries_fold m.buckets []

theorem allEntries_map_none (bs : List Bucket) :
    allEntries (bs.map (fun _ => none)) = [] := by
  induction bs with
  | nil => rfl
  | cons b rest ih =>
    simp only [List.map_cons, allEntries, bucketEntries, List.nil_append]
    exact ih

/-! ### The rehash loop of `resize` -/

theorem resize_fold (bs : List Bucket) (n : Nat) (a : List Bucket) :
    bs.foldl (resizeStep n) a = rehashAll (allEntries bs) n a := by
  induction bs generalizing a with
  | nil => rfl
  | cons b rest ih =>
    cases b with
    | none => simp [resizeStep, allEntries, bucketEntries, rehashAll, ih]
    | some bucket =>
      simp [resizeStep, allEntries, bucketEntries, rehashAll,
        List.foldl_append, ih]

theorem rehashAll_cons (e : Entry) (es : List Entry) (n : Nat)
    (acc : List Bucket) :
    rehashAll (e :: es) n acc = rehashAll es n (insertEntryRehash acc n e) :=
  rfl

theorem insertEntryRehash_eq (acc : List Bucket) (n : Nat) (e : Entry) :
    insertEntryRehash acc n e =
      acc.set (hash e.key n)
        (some (bucketAt acc (hash e.key n) ++ [e])) := by
  unfold insertEntryRehash
  split <;> rename_i h <;>
    simp only [List.getD_eq_getElem?_getD] at h <;>
    simp [bucketAt, bucketEntries, h]

theorem insertEntryRehash_length (acc : List Bucket) (n : Nat) (e : Entry) :
    (insertEntryRehash acc n e).length = acc.length := by
  rw [insertEntryRehash_eq]; simp

theorem rehashAll_length (n : Nat) :
    ∀ (es : List Entry) (acc : List Bucket),
      (rehashAll es n acc).length = acc.length := by
  intro es
  induction es with
  | nil => intro acc; rfl
  | cons e rest ih =>
    intro acc
    rw [rehashAll_cons, ih, insertEntryRehash_length]

theorem insertEntryRehash_perm (acc : List Bucket) (n : Nat) (e : Entry)
    (h : hash e.key n < acc.length) :
    List.Perm (allEntries (insertEntryRehash acc n e))
      (allEntries acc ++ [e]) := by
  rw [insertEntryRehash_eq, allEntries_set_decomp acc _ _ h]
  conv_rhs => rw [allEntries_getD_decomp acc (hash e.key n) h]
  simp only [bucketEntries, bucketAt, List.append_assoc]
  refine List.Perm.append_left _ (List.Perm.append_left _ ?_)
  simpa using
    (@List.perm_middle Entry e (allEntries (acc.drop (hash e.key n + 1))) []).symm

theorem rehashAll_perm (n : Nat) (hn : 0 < n) :
    ∀ (es : List Entry) (acc : List Bucket), acc.length = n →
      List.Perm (allEntries (rehashAll es n acc)) (allEntries acc ++ es) := by
  intro es
  induction es with
  | nil => intro acc _; simp [rehashAll]
  | cons e rest ih =>
    intro acc hlen
    rw [rehashAll_cons]
    have h1 : hash e.key n < acc.length := by rw [hlen]; exact hash_lt e.key hn
    have h2 := ih (insertEntryRehash acc n e)
      (by rw [insertEntryRehash_length, hlen])
    have h3 := (insertEntryRehash_perm acc n e h1).append_right rest
    have heq : (allEntries acc ++ [e]) ++ rest = allEntries acc ++ (e :: rest) := by
      simp
    exact h2.trans (heq ▸ h3)

theorem rehashAll_placed (n : Nat) (hn : 0 < n) :
    ∀ (es : List Entry) (acc : List Bucket), acc.length = n →
      (∀ i, ∀ e ∈ bucketAt acc i, hash e.key n = i) →
      ∀ i, ∀ e ∈ bucketAt (rehashAll es n acc) i, hash e.key n = i := by
  intro es
  induction es with
  | nil => intro acc _ hp; exact hp
  | cons e rest ih =>
    intro acc hlen hp
    rw [rehashAll_cons]
    refine ih (insertEntryRehash acc n e)
      (by rw [insertEntryRehash_length, hlen]) ?_
    intro i e' he'
    rw [insertEntryRehash_eq] at he'
    by_cases hi : hash e.key n = i
    · subst hi
      unfold bucketAt at he'
      rw [getD_set_self _ _ _ _ (by rw [hlen]; exact hash_lt e.key hn)] at he'
      simp only [bucketEntries, List.mem_append, List.mem_singleton] at he'
      rcases he' with h | h
      · exact hp _ e' h
      · rw [h]
    · unfold bucketAt at he'
      rw [getD_set_ne _ _ _ _ _ hi] at he'
      exact hp i e' he'

/-! ### `resize` preserves the data and the invariants -/

theorem bucketAt_replicate_none (n i : Nat) :
    bucketAt (List.replicate n none) i = [] := by
  induction n generalizing i with
  | zero => rfl
  | succ k ih =>
    cases i with
    | zero => rfl
    | succ j => rw [List.replicate_succ, bucketAt_cons_succ]; exact ih j

theorem resize_bucketCount (m : HashMap) :
    (resize m).bucketCount = m.bucketCount * 2 := rfl

theorem resize_size (m : HashMap) : (resize m).size = m.size := rfl

theorem resize_maxLoadFactor (m : HashMap) :
    (resize m).maxLoadFactor = m.maxLoadFactor := rfl

theorem resize_buckets (m : HashMap) :
    (resize m).buckets =
      rehashAll (toList m) (m.bucketCount * 2)
        (List.replicate (m.bucketCount * 2) none) := by
  simp [resize, resize_fold, toList]

theorem resize_len (m : HashMap) :
    (resize m).buckets.length = (resize m).bucketCount := by
  rw [resize_buckets, rehashAll_length, List.length_replicate,
    resize_bucketCount]

theorem resize_perm (m : HashMap) (hpos : 0 < m.bucketCount) :
    List.Perm (toList (resize m)) (toList m) := by
  have hn : 0 < m.bucketCount * 2 := by omega
  have h := rehashAll_perm (m.bucketCount * 2) hn (toList m)
    (List.replicate (m.bucketCount * 2) none) (by simp)
  have h2 : toList (resize m) =
      allEntries (rehashAll (toList m) (m.bucketCount * 2)
        (List.replicate (m.bucketCount * 2) none)) := by
    rw [toList, resize_buckets]
  rw [h2]
  simpa [allEntries_replicate_none] using h

theorem resize_placed (m : HashMap) (hpos : 0 < m.bucketCount) :
    ∀ i, ∀ e ∈ bucketAt (resize m).buckets i,
      hash e.key (resize m).bucketCount = i := by
  have hn : 0 < m.bucketCount * 2 := by omega
  intro i e he
  rw [resize_buckets] at he
  rw [resize_bucketCount]
  exact rehashAll_placed (m.bucketCount * 2) hn (toList m) _ (by simp)
    (fun j e' he' => by rw [bucketAt_replicate_none] at he'; cases he') i e he

theorem resize_Inv {m : HashMap} (hInv : Inv m) : Inv (resize m) := by
  have hperm := resize_perm m hInv.pos
  refine ⟨resize_len m, ?_, resize_placed m hInv.pos, ?_, ?_⟩
  · rw [resize_bucketCount]
    have := hInv.pos
    omega
  · exact ((hperm.map Entry.key).nodup_iff).mpr hInv.nodup
  · rw [resize_size, hInv.size_eq, hperm.length_eq]

/-! ### Characterisation of `get` through the stored entries -/

theorem hasKey_of_mem {m : HashMap} {e : Entry} (h : e ∈ toList m) :
    HasKey m e.key :=
  ⟨e.value, h⟩

theorem entry_eq_of_key_eq {m : HashMap} (hInv : Inv m) {e₁ e₂ : Entry}
    (h1 : e₁ ∈ toList m) (h2 : e₂ ∈ toList m) (hk : e₁.key = e₂.key) :
    e₁ = e₂ :=
  List.inj_on_of_nodup_map hInv.nodup h1 h2 hk

theorem get_of_not_hasKey {m : HashMap} {k : String} (h : ¬ HasKey m k) :
    get m k = Value.null := by
  unfold get
  split
  · rfl
  · rename_i bucket hb
    split
    · rename_i e he
      exfalso
      have hek : e.key = k := by simpa using List.find?_some he
      have hemem : e ∈ bucket := List.mem_of_find?_eq_some he
      have h1 : e ∈ toList m := mem_allEntries.mpr
        ⟨hash k m.bucketCount, by unfold bucketAt; rw [hb]; exact hemem⟩
      exact h (hek ▸ hasKey_of_mem h1)
    · rfl

theorem get_of_mapsTo {m : HashMap} {k : String} {v : Value} (hInv : Inv m)
    (hm : MapsTo m k v) : get m k = v := by
  have hidx : Entry.mk k v ∈ bucketAt m.buckets (hash k m.bucketCount) := by
    obtain ⟨i, hi⟩ := mem_allEntries.mp hm
    have hpl := hInv.placed i _ hi
    subst hpl
    exact hi
  unfold get
  split
  · rename_i hb
    exfalso
    unfold bucketAt at hidx
    rw [hb] at hidx
    cases hidx
  · rename_i bucket hb
    have hbeq : bucketAt m.buckets (hash k m.bucketCount) = bucket := by
      unfold bucketAt; rw [hb]; rfl
    rw [hbeq] at hidx
    split
    · rename_i e he
      have hek : e.key = k := by simpa using List.find?_some he
      have hemem : e ∈ bucket := List.mem_of_find?_eq_some he
      have h1 : e ∈ toList m := mem_allEntries.mpr
        ⟨hash k m.bucketCount, hbeq ▸ hemem⟩
      have h2 : e = Entry.mk k v := entry_eq_of_key_eq hInv h1 hm hek
      rw [h2]
    · rename_i he
      exfalso
      have := List.find?_eq_none.mp he _ hidx
      simp at this

theorem resize_hasKey {m : HashMap} (hpos : 0 < m.bucketCount) (k : String) :
    HasKey (resize m) k ↔ HasKey m k := by
  unfold HasKey MapsTo
  exact exists_congr fun v => (resize_perm m hpos).mem_iff

theorem resize_get {m : HashMap} (hInv : Inv m) (k : String) :
    get (resize m) k = get m k := by
  by_cases h : HasKey m k
  · obtain ⟨v, hv⟩ := h
    rw [get_of_mapsTo hInv hv,
      get_of_mapsTo (resize_Inv hInv) ((resize_perm m hInv.pos).mem_iff.mpr hv)]
  · rw [get_of_not_hasKey h,
      get_of_not_hasKey (fun h' => h ((resize_hasKey hInv.pos k).mp h'))]

/-! ### `mkHashMap` satisfies the invariants and is empty -/

theorem toList_mk (c : Nat) (f : Rat) : toList (mkHashMap c f) = [] := by
  simp [toList, mkHashMap, allEntries_replicate_none]

theorem Inv_mk {c : Nat} (f : Rat) (hc : 0 < c) : Inv (mkHashMap c f) := by
  refine ⟨by simp [mkHashMap], by simpa [mkHashMap] using hc, ?_, ?_, ?_⟩
  · intro i e he
    rw [show (mkHashMap c f).buckets = List.replicate c none from rfl,
      bucketAt_replicate_none] at he
    cases he
  · rw [toList_mk]; exact List.nodup_nil
  · rw [toList_mk]; rfl

theorem not_hasKey_mk (c : Nat) (f : Rat) (k : String) :
    ¬ HasKey (mkHashMap c f) k := by
  rintro ⟨v, hv⟩
  rw [MapsTo, toList_mk] at hv
  cases hv

/-! ### The in-bucket scan loops of `set` and `remove` -/

theorem updateBucket_eq_none {l : List Entry} {k : String} {v : Value} :
    updateBucket l k v = none ↔ ∀ e ∈ l, e.key ≠ k := by
  induction l with
  | nil => simp [updateBucket]
  | cons e rest ih =>
    constructor
    · intro h e' he'
      by_cases hek : e.key = k
      · simp [updateBucket, hek] at h
      · have hr : updateBucket rest k v = none := by
          cases hcase : updateBucket rest k v with
          | none => rfl
          | some r2 => simp [updateBucket, hek, hcase] at h
        rcases List.mem_cons.mp he' with rfl | hmem
        · exact hek
        · exact ih.mp hr e' hmem
    · intro h
      have hek : e.key ≠ k := h e (List.mem_cons_self e rest)
      have hr : updateBucket rest k v = none :=
        ih.mpr (fun e' he' => h e' (List.mem_cons_of_mem _ he'))
      simp [updateBucket, hek, hr]

theorem updateBucket_eq_some {l : List Entry} {k : String} {v : Value}
    {l' : List Entry} (h : updateBucket l k v = some l') :
    ∃ pre e₀ post, l = pre ++ e₀ :: post ∧ (∀ e ∈ pre, e.key ≠ k) ∧
      e₀.key = k ∧ l' = pre ++ Entry.mk k v :: post := by
  induction l generalizing l' with
  | nil => simp [updateBucket] at h
  | cons e rest ih =>
    by_cases hek : e.key = k
    · refine ⟨[], e, rest, by simp, by simp, hek, ?_⟩
      simp only [updateBucket, if_pos hek, Option.some.injEq] at h
      rw [← h, hek]
      rfl
    · cases hr : updateBucket rest k v with
      | none => simp [updateBucket, hek, hr] at h
      | some rest2 =>
        simp only [updateBucket, if_neg hek, hr, Option.some.injEq] at h
        obtain ⟨pre, e₀, post, hl, hpre, hk0, hl2⟩ := ih hr
        refine ⟨e :: pre, e₀, post, by simp [hl], ?_, hk0, by simp [← h, hl2]⟩
        intro e' he'
        rcases List.mem_cons.mp he' with rfl | hm
        · exact hek
        · exact hpre e' hm

theorem removeFromBucket_eq_none {l : List Entry} {k : String} :
    removeFromBucket l k = none ↔ ∀ e ∈ l, e.key ≠ k := by
  induction l with
  | nil => simp [removeFromBucket]
  | cons e rest ih =>
    constructor
    · intro h e' he'
      by_cases hek : e.key = k
      · simp [removeFromBucket, hek] at h
      · have hr : removeFromBucket rest k = none := by
          cases hcase : removeFromBucket rest k with
          | none => rfl
          | some r2 => simp [removeFromBucket, hek, hcase] at h
        rcases List.mem_cons.mp he' with rfl | hmem
        · exact hek
        · exact ih.mp hr e' hmem
    · intro h
      have hek : e.key ≠ k := h e (List.mem_cons_self e rest)
      have hr : removeFromBucket rest k = none :=
        ih.mpr (fun e' he' => h e' (List.mem_cons_of_mem _ he'))
      simp [removeFromBucket, hek, hr]

theorem removeFromBucket_eq_some {l : List Entry} {k : String}
    {l' : List Entry} (h : removeFromBucket l k = some l') :
    ∃ pre e₀ post, l = pre ++ e₀ :: post ∧ (∀ e ∈ pre, e.key ≠ k) ∧
      e₀.key = k ∧ l' = pre ++ post := by
  induction l generalizing l' with
  | nil => simp [removeFromBucket] at h
  | cons e rest ih =>
    by_cases hek : e.key = k
    · refine ⟨[], e, rest, by simp, by simp, hek, ?_⟩
      simp only [removeFromBucket, if_pos hek, Option.some.injEq] at h
      rw [← h]
      rfl
    · cases hr : removeFromBucket rest k with
      | none => simp [removeFromBucket, hek, hr] at h
      | some rest2 =>
        simp only [removeFromBucket, if_neg hek, hr, Option.some.injEq] at h
        obtain ⟨pre, e₀, post, hl, hpre, hk0, hl2⟩ := ih hr
        refine ⟨e :: pre, e₀, post, by simp [hl], ?_, hk0, by simp [← h, hl2]⟩
        intro e' he'
        rcases List.mem_cons.mp he' with rfl | hm
        · exact hek
        · exact hpre e' hm

/-! ### Structural helpers for single-bucket surgery -/

theorem perm_insert_middle {α : Type} (X Y Z : List α) (a : α) :
    List.Perm (X ++ (Y ++ [a]) ++ Z) (a :: (X ++ Y ++ Z)) := by
  have heq : X ++ (Y ++ [a]) ++ Z = (X ++ Y) ++ a :: Z := by
    simp [List.append_assoc]
  have h := @List.perm_middle α a (X ++ Y) Z
  rw [heq]
  simpa [List.append_assoc] using h

theorem placed_after_set (bs : List Bucket) (c idx : Nat)
    (newB : List Entry)
    (hplaced : ∀ i, ∀ e ∈ bucketAt bs i, hash e.key c = i)
    (hidx : idx < bs.length)
    (hnew : ∀ e ∈ newB, hash e.key c = idx) :
    ∀ i, ∀ e ∈ bucketAt (bs.set idx (some newB)) i, hash e.key c = i := by
  intro i e he
  unfold bucketAt at he
  by_cases hi : idx = i
  · subst hi
    rw [getD_set_self _ _ _ _ hidx] at he
    exact hnew e he
  · rw [getD_set_ne _ _ _ _ _ hi] at he
    exact hplaced i e he

/-! ### The full specification of the insertion body of `set` -/

theorem setBody_spec {m : HashMap} (hInv : Inv m) (k : String) (v : Value) :
    Inv (setBody m k v) ∧
    MapsTo (setBody m k v) k v ∧
    (∀ k' v', k' ≠ k → (MapsTo (setBody m k v) k' v' ↔ MapsTo m k' v')) ∧
    (HasKey m k → (setBody m k v).size = m.size) ∧
    (¬ HasKey m k → (setBody m k v).size = m.size + 1) ∧
    (setBody m k v).bucketCount = m.bucketCount ∧
    (setBody m k v).maxLoadFactor = m.maxLoadFactor := by
  have hc := hInv.pos
  have hidxlt : hash k m.bucketCount < m.buckets.length := by
    rw [hInv.len_eq]; exact hash_lt k hc
  have hdecomp : toList m =
      allEntries (m.buckets.take (hash k m.bucketCount)) ++
      bucketAt m.buckets (hash k m.bucketCount) ++
      allEntries (m.buckets.drop (hash k m.bucketCount + 1)) :=
    allEntries_getD_decomp m.buckets _ hidxlt
  cases hu : updateBucket (bucketAt m.buckets (hash k m.bucketCount)) k v with
  | some bucket2 =>
    obtain ⟨pre, e₀, post, hl, hpre, hk0, hl2⟩ := updateBucket_eq_some hu
    have hbody : setBody m k v =
        { m with
          buckets := m.buckets.set (hash k m.bucketCount) (some bucket2) } := by
      unfold setBody; rw [hu]
    have htl : toList (setBody m k v) =
        allEntries (m.buckets.take (hash k m.bucketCount)) ++
        (pre ++ Entry.mk k v :: post) ++
        allEntries (m.buckets.drop (hash k m.bucketCount + 1)) := by
      rw [hbody]
      show allEntries _ = _
      rw [allEntries_set_decomp _ _ _ hidxlt]
      simp [bucketEntries, hl2]
    have htl0 : toList m =
        allEntries (m.buckets.take (hash k m.bucketCount)) ++
        (pre ++ e₀ :: post) ++
        allEntries (m.buckets.drop (hash k m.bucketCount + 1)) := by
      rw [hdecomp, hl]
    have hkeys : (toList (setBody m k v)).map Entry.key =
        (toList m).map Entry.key := by
      rw [htl, htl0]
      simp [hk0]
    have hlen2 : (toList (setBody m k v)).length = (toList m).length := by
      rw [htl, htl0]; simp
    have hsize2 : (setBody m k v).size = m.size := by rw [hbody]
    have hbc : (setBody m k v).bucketCount = m.bucketCount := by rw [hbody]
    have hml : (setBody m k v).maxLoadFactor = m.maxLoadFactor := by
      rw [hbody]
    have he₀m : e₀ ∈ toList m := by rw [htl0]; simp
    have hhk : HasKey m k := hk0 ▸ hasKey_of_mem he₀m
    have hmaps : MapsTo (setBody m k v) k v := by rw [MapsTo, htl]; simp
    have hplaced2 : ∀ i, ∀ e ∈ bucketAt (setBody m k v).buckets i,
        hash e.key (setBody m k v).bucketCount = i := by
      rw [hbody]
      refine placed_after_set m.buckets m.bucketCount _ bucket2
        hInv.placed hidxlt ?_
      intro e he
      rw [hl2] at he
      have hB : ∀ e' ∈ (pre ++ e₀ :: post),
          hash e'.key m.bucketCount = hash k m.bucketCount := by
        intro e' he'
        exact hInv.placed _ e' (hl ▸ he')
      rcases List.mem_append.mp he with h | h
      · exact hB e (List.mem_append_left _ h)
      · rcases List.mem_cons.mp h with rfl | h
        · rfl
        · exact hB e (List.mem_append_right _ (List.mem_cons_of_mem _ h))
    have hInv2 : Inv (setBody m k v) := by
      refine ⟨?_, ?_, hplaced2, ?_, ?_⟩
      · rw [hbody]
        simpa using hInv.len_eq
      · rw [hbc]; exact hc
      · rw [hkeys]; exact hInv.nodup
      · rw [hsize2, hInv.size_eq]; exact hlen2.symm
    have hiff : ∀ k' v', k' ≠ k →
        (MapsTo (setBody m k v) k' v' ↔ MapsTo m k' v') := by
      intro k' v' hne
      rw [MapsTo, MapsTo, htl, htl0]
      have hf1 : ¬ (Entry.mk k' v' = Entry.mk k v) := by
        intro h; injection h with h1 _; exact hne h1
      have hf2 : ¬ (Entry.mk k' v' = e₀) := by
        intro h; apply hne; rw [← hk0, ← h]
      simp only [List.mem_append, List.mem_cons]
      simp [hf1, hf2]
    exact ⟨hInv2, hmaps, hiff, fun _ => hsize2, fun hn => absurd hhk hn,
      hbc, hml⟩
  | none =>
    have hnk := updateBucket_eq_none.mp hu
    have hbody : setBody m k v =
        { m with
          buckets := m.buckets.set (hash k m.bucketCount)
            (some (bucketAt m.buckets (hash k m.bucketCount) ++
              [Entry.mk k v]))
          size := m.size + 1 } := by
      unfold setBody; rw [hu]
    have hnot : ¬ HasKey m k := by
      rintro ⟨v', hv'⟩
      obtain ⟨i, hi⟩ := mem_allEntries.mp hv'
      have hpl := hInv.placed i _ hi
      subst hpl
      exact hnk _ hi rfl
    have htl : toList (setBody m k v) =
        allEntries (m.buckets.take (hash k m.bucketCount)) ++
        (bucketAt m.buckets (hash k m.bucketCount) ++ [Entry.mk k v]) ++
        allEntries (m.buckets.drop (hash k m.bucketCount + 1)) := by
      rw [hbody]
      show allEntries _ = _
      rw [allEntries_set_decomp _ _ _ hidxlt]
      rfl
    have hperm : List.Perm ((toList (setBody m k v)).map Entry.key)
        (k :: (toList m).map Entry.key) := by
      rw [htl, hdecomp]
      simp only [List.map_append, List.map_cons, List.map_nil]
      exact perm_insert_middle _ _ _ k
    have hknotin : k ∉ (toList m).map Entry.key := by
      intro hk2
      obtain ⟨e, he, hek⟩ := List.mem_map.mp hk2
      exact hnot (hek ▸ hasKey_of_mem he)
    have hnodup2 : ((toList (setBody m k v)).map Entry.key).Nodup :=
      (hperm.nodup_iff).mpr (List.nodup_cons.mpr ⟨hknotin, hInv.nodup⟩)
    have hlen2 : (toList (setBody m k v)).length = (toList m).length + 1 := by
      have h := hperm.length_eq
      simpa using h
    have hsize2 : (setBody m k v).size = m.size + 1 := by rw [hbody]
    have hbc : (setBody m k v).bucketCount = m.bucketCount := by rw [hbody]
    have hml : (setBody m k v).maxLoadFactor = m.maxLoadFactor := by
      rw [hbody]
    have hmaps : MapsTo (setBody m k v) k v := by rw [MapsTo, htl]; simp
    have hplaced2 : ∀ i, ∀ e ∈ bucketAt (setBody m k v).buckets i,
        hash e.key (setBody m k v).bucketCount = i := by
      rw [hbody]
      refine placed_after_set m.buckets m.bucketCount _ _
        hInv.placed hidxlt ?_
      intro e he
      rcases List.mem_append.mp he with h | h
      · exact hInv.placed _ e h
      · rcases List.mem_singleton.mp h with rfl
        rfl
    have hInv2 : Inv (setBody m k v) := by
      refine ⟨?_, ?_, hplaced2, hnodup2, ?_⟩
      · rw [hbody]
        simpa using hInv.len_eq
      · rw [hbc]; exact hc
      · rw [hsize2, hInv.size_eq, hlen2]
    have hiff : ∀ k' v', k' ≠ k →
        (MapsTo (setBody m k v) k' v' ↔ MapsTo m k' v') := by
      intro k' v' hne
      rw [MapsTo, MapsTo, htl, hdecomp]
      have hf1 : ¬ (Entry.mk k' v' = Entry.mk k v) := by
        intro h; injection h with h1 _; exact hne h1
      simp only [List.mem_append, List.mem_cons, List.mem_singleton]
      simp [hf1]
    exact ⟨hInv2, hmaps, hiff, fun h => absurd h hnot, fun _ => hsize2,
      hbc, hml⟩

/-! ### The full `set` operation -/

theorem preResize_Inv {m : HashMap} (hInv : Inv m) :
    Inv (if loadFactor m ≥ m.maxLoadFactor then resize m else m) := by
  split
  · exact resize_Inv hInv
  · exact hInv

theorem preResize_mapsTo {m : HashMap} (hInv : Inv m) (k : String)
    (v : Value) :
    MapsTo (if loadFactor m ≥ m.maxLoadFactor then resize m else m) k v ↔
      MapsTo m k v := by
  split
  · exact (resize_perm m hInv.pos).mem_iff
  · exact Iff.rfl

theorem preResize_hasKey {m : HashMap} (hInv : Inv m) (k : String) :
    HasKey (if loadFactor m ≥ m.maxLoadFactor then resize m else m) k ↔
      HasKey m k :=
  exists_congr fun v => preResize_mapsTo hInv k v

theorem preResize_size (m : HashMap) :
    (if loadFactor m ≥ m.maxLoadFactor then resize m else m).size = m.size := by
  split <;> rfl

theorem preResize_maxLoadFactor (m : HashMap) :
    (if loadFactor m ≥ m.maxLoadFactor then resize m else m).maxLoadFactor =
      m.maxLoadFactor := by
  split <;> rfl

theorem set_spec {m : HashMap} (hInv : Inv m) (k : String) (v : Value) :
    Inv (set m k v) ∧
    MapsTo (set m k v) k v ∧
    (∀ k' v', k' ≠ k → (MapsTo (set m k v) k' v' ↔ MapsTo m k' v')) ∧
    (HasKey m k → (set m k v).size = m.size) ∧
    (¬ HasKey m k → (set m k v).size = m.size + 1) ∧
    (set m k v).maxLoadFactor = m.maxLoadFactor := by
  obtain ⟨h1, h2, h3, h4, h5, h6, h7⟩ := setBody_spec (preResize_Inv hInv) k v
  refine ⟨h1, h2, ?_, ?_, ?_, ?_⟩
  · intro k' v' hne
    exact (h3 k' v' hne).trans (preResize_mapsTo hInv k' v')
  · intro hk
    have h := h4 ((preResize_hasKey hInv k).mpr hk)
    rw [preResize_size] at h
    exact h
  · intro hk
    have h := h5 (fun h' => hk ((preResize_hasKey hInv k).mp h'))
    rw [preResize_size] at h
    exact h
  · exact h7.trans (preResize_maxLoadFactor m)

theorem set_Inv {m : HashMap} (hInv : Inv m) (k : String) (v : Value) :
    Inv (set m k v) :=
  (set_spec hInv k v).1

theorem get_set_self {m : HashMap} (hInv : Inv m) (k : String) (v : Value) :
    get (set m k v) k = v :=
  get_of_mapsTo (set_spec hInv k v).1 (set_spec hInv k v).2.1

theorem get_set_other {m : HashMap} (hInv : Inv m) {k k' : String}
    (v : Value) (hne : k' ≠ k) : get (set m k v) k' = get m k' := by
  obtain ⟨hInv2, _, h3, _⟩ := set_spec hInv k v
  by_cases h : HasKey m k'
  · obtain ⟨v', hv'⟩ := h
    rw [get_of_mapsTo hInv hv', get_of_mapsTo hInv2 ((h3 k' v' hne).mpr hv')]
  · rw [get_of_not_hasKey h, get_of_not_hasKey
      (fun h' => h (Exists.elim h' fun v' hv' => ⟨v', (h3 k' v' hne).mp hv'⟩))]

theorem set_hasKey {m : HashMap} (hInv : Inv m) (k : String) (v : Value)
    (k' : String) : HasKey (set m k v) k' ↔ (k' = k ∨ HasKey m k') := by
  obtain ⟨_, h2, h3, _⟩ := set_spec hInv k v
  constructor
  · rintro ⟨v', hv'⟩
    by_cases hne : k' = k
    · exact Or.inl hne
    · exact Or.inr ⟨v', (h3 k' v' hne).mp hv'⟩
  · rintro (rfl | ⟨v', hv'⟩)
    · exact ⟨v, h2⟩
    · by_cases hne : k' = k
      · subst hne; exact ⟨v, h2⟩
      · exact ⟨v', (h3 k' v' hne).mpr hv'⟩

/-! ### The full `remove` operation -/

theorem perm_cons_middle {α : Type} (X Y Z W : List α) (a : α) :
    List.Perm (X ++ (Y ++ a :: Z) ++ W) (a :: (X ++ (Y ++ Z) ++ W)) := by
  have heq : X ++ (Y ++ a :: Z) ++ W = (X ++ Y) ++ a :: (Z ++ W) := by
    simp [List.append_assoc]
  have h := @List.perm_middle α a (X ++ Y) (Z ++ W)
  rw [heq]
  simpa [List.append_assoc] using h

theorem remove_spec {m : HashMap} (hInv : Inv m) (k : String) :
    (HasKey m k →
      (remove m k).2 = true ∧
      (remove m k).1.size + 1 = m.size ∧
      ¬ HasKey (remove m k).1 k ∧
      Inv (remove m k).1 ∧
      (remove m k).1.bucketCount = m.bucketCount) ∧
    (¬ HasKey m k → remove m k = (m, false)) := by
  have hc := hInv.pos
  have hidxlt : hash k m.bucketCount < m.buckets.length := by
    rw [hInv.len_eq]; exact hash_lt k hc
  constructor
  · rintro ⟨v, hv⟩
    have hidx : Entry.mk k v ∈ bucketAt m.buckets (hash k m.bucketCount) := by
      obtain ⟨i, hi⟩ := mem_allEntries.mp hv
      have hpl := hInv.placed i _ hi
      subst hpl; exact hi
    cases hb : m.buckets.getD (hash k m.bucketCount) none with
    | none =>
      exfalso; unfold bucketAt at hidx; rw [hb] at hidx; cases hidx
    | some bucket =>
      have hbeq : bucketAt m.buckets (hash k m.bucketCount) = bucket := by
        unfold bucketAt; rw [hb]; rfl
      rw [hbeq] at hidx
      cases hrb : removeFromBucket bucket k with
      | none =>
        exfalso
        exact removeFromBucket_eq_none.mp hrb _ hidx rfl
      | some bucket2 =>
        have hbody : remove m k =
            ({ m with
                buckets := m.buckets.set (hash k m.bucketCount) (some bucket2)
                size := m.size - 1 }, true) := by
          unfold remove; rw [hb]; dsimp only; rw [hrb]
        obtain ⟨pre, e₀, post, hl, hpre, hk0, hl2⟩ :=
          removeFromBucket_eq_some hrb
        have htl0 : toList m =
            allEntries (m.buckets.take (hash k m.bucketCount)) ++
            (pre ++ e₀ :: post) ++
            allEntries (m.buckets.drop (hash k m.bucketCount + 1)) := by
          have h := allEntries_getD_decomp m.buckets _ hidxlt
          rw [toList, h, hbeq, hl]
        have htl : toList (remove m k).1 =
            allEntries (m.buckets.take (hash k m.bucketCount)) ++
            (pre ++ post) ++
            allEntries (m.buckets.drop (hash k m.bucketCount + 1)) := by
          rw [hbody]
          show allEntries _ = _
          rw [allEntries_set_decomp _ _ _ hidxlt]
          simp [bucketEntries, hl2]
        have hperm : List.Perm ((toList m).map Entry.key)
            (k :: (toList (remove m k).1).map Entry.key) := by
          rw [htl0, htl]
          simp only [List.map_append, List.map_cons]
          rw [hk0]
          exact perm_cons_middle _ _ _ _ k
        have hnodup_cons :
            (k :: (toList (remove m k).1).map Entry.key).Nodup :=
          (hperm.nodup_iff).mp hInv.nodup
        have hknotin : k ∉ (toList (remove m k).1).map Entry.key :=
          (List.nodup_cons.mp hnodup_cons).1
        have hnodup2 : ((toList (remove m k).1).map Entry.key).Nodup :=
          (List.nodup_cons.mp hnodup_cons).2
        have hnothas : ¬ HasKey (remove m k).1 k := by
          rintro ⟨v', hv'⟩
          exact hknotin (List.mem_map.mpr ⟨_, hv', rfl⟩)
        have hlen2 : (toList m).length = (toList (remove m k).1).length + 1 := by
          simpa using hperm.length_eq
        have hsize2 : (remove m k).1.size = m.size - 1 := by rw [hbody]
        have hsizepos : 1 ≤ m.size := by
          rw [hInv.size_eq, hlen2]; omega
        have hbc2 : (remove m k).1.bucketCount = m.bucketCount := by rw [hbody]
        have hplaced2 : ∀ i, ∀ e ∈ bucketAt (remove m k).1.buckets i,
            hash e.key (remove m k).1.bucketCount = i := by
          rw [hbody]
          refine placed_after_set m.buckets m.bucketCount _ _
            hInv.placed hidxlt ?_
          intro e he
          rw [hl2] at he
          have hB : ∀ e' ∈ bucket,
              hash e'.key m.bucketCount = hash k m.bucketCount := by
            intro e' he'
            exact hInv.placed _ e' (hbeq.symm ▸ he')
          rcases List.mem_append.mp he with h | h
          · exact hB e (by rw [hl]; exact List.mem_append_left _ h)
          · exact hB e
              (by rw [hl]; exact List.mem_append_right _ (List.mem_cons_of_mem _ h))
        have hInv2 : Inv (remove m k).1 := by
          refine ⟨?_, ?_, hplaced2, hnodup2, ?_⟩
          · rw [hbody]; simpa using hInv.len_eq
          · rw [hbc2]; exact hc
          · rw [hsize2, hInv.size_eq, hlen2]; omega
        refine ⟨by rw [hbody], ?_, hnothas, hInv2, hbc2⟩
        rw [hsize2]
        omega
  · intro hk
    cases hb : m.buckets.getD (hash k m.bucketCount) none with
    | none => unfold remove; rw [hb]
    | some bucket =>
      have hbeq : bucketAt m.buckets (hash k m.bucketCount) = bucket := by
        unfold bucketAt; rw [hb]; rfl
      have hrb : removeFromBucket bucket k = none := by
        refine removeFromBucket_eq_none.mpr ?_
        intro e he hek
        apply hk
        exact hek ▸ hasKey_of_mem
          (mem_allEntries.mpr ⟨hash k m.bucketCount, hbeq.symm ▸ he⟩)
      unfold remove; rw [hb]; dsimp only; rw [hrb]

/-! ### Load-factor accounting for `set` -/

theorem setBody_size_le (m : HashMap) (k : String) (v : Value) :
    (setBody m k v).size ≤ m.size + 1 ∧
    (setBody m k v).bucketCount = m.bucketCount ∧
    (setBody m k v).maxLoadFactor = m.maxLoadFactor := by
  unfold setBody
  split
  · exact ⟨Nat.le_succ _, rfl, rfl⟩
  · exact ⟨Nat.le_refl _, rfl, rfl⟩

theorem c2_step {f : Rat} {m : HashMap} (k : String) (v : Value)
    (h : 0 < m.bucketCount ∧ m.maxLoadFactor = f ∧
      ∃ K : Nat, 1 ≤ K ∧ f * (m.bucketCount : Rat) = (K : Rat) ∧ m.size ≤ K) :
    0 < (set m k v).bucketCount ∧ (set m k v).maxLoadFactor = f ∧
      ∃ K : Nat, 1 ≤ K ∧ f * ((set m k v).bucketCount : Rat) = (K : Rat) ∧
        (set m k v).size ≤ K := by
  obtain ⟨hpos, hml, K, hK1, hfc, hsK⟩ := h
  by_cases hg : loadFactor m ≥ m.maxLoadFactor
  · have hset : set m k v = setBody (resize m) k v := by
      unfold set; rw [if_pos hg]
    obtain ⟨hs_le, hbc_eq, hml_eq⟩ := setBody_size_le (resize m) k v
    refine ⟨?_, ?_, 2 * K, by omega, ?_, ?_⟩
    · rw [hset, hbc_eq, resize_bucketCount]; omega
    · rw [hset, hml_eq, resize_maxLoadFactor, hml]
    · rw [hset, hbc_eq, resize_bucketCount]
      push_cast
      rw [← hfc]
      ring
    · rw [hset]
      refine le_trans hs_le ?_
      rw [resize_size]
      omega
  · have hset : set m k v = setBody m k v := by
      unfold set; rw [if_neg hg]
    obtain ⟨hs_le, hbc_eq, hml_eq⟩ := setBody_size_le m k v
    have hlt : loadFactor m < m.maxLoadFactor := lt_of_not_ge hg
    have hcpos : (0 : Rat) < (m.bucketCount : Rat) := by exact_mod_cast hpos
    have hsz_lt : (m.size : Rat) < (K : Rat) := by
      rw [loadFactor, hml] at hlt
      have h2 : (m.size : Rat) < f * (m.bucketCount : Rat) :=
        (div_lt_iff₀ hcpos).mp hlt
      rwa [hfc] at h2
    have hsz_lt2 : m.size < K := by exact_mod_cast hsz_lt
    refine ⟨?_, ?_, K, hK1, ?_, ?_⟩
    · rw [hset, hbc_eq]; exact hpos
    · rw [hset, hml_eq, hml]
    · rw [hset, hbc_eq]; exact hfc
    · rw [hset]
      exact le_trans hs_le (by omega)

theorem c2_inv (c : Nat) (f : Rat) (K : Nat) (hc : 0 < c) (hK1 : 1 ≤ K)
    (hfc : f * (c : Rat) = (K : Rat)) (l : List (String × Value)) :
    0 < (setAll (mkHashMap c f) l).bucketCount ∧
    (setAll (mkHashMap c f) l).maxLoadFactor = f ∧
    ∃ K2 : Nat, 1 ≤ K2 ∧
      f * ((setAll (mkHashMap c f) l).bucketCount : Rat) = (K2 : Rat) ∧
      (setAll (mkHashMap c f) l).size ≤ K2 := by
  suffices h : ∀ (l2 : List (String × Value)) (m : HashMap),
      (0 < m.bucketCount ∧ m.maxLoadFactor = f ∧
        ∃ K2 : Nat, 1 ≤ K2 ∧ f * (m.bucketCount : Rat) = (K2 : Rat) ∧
          m.size ≤ K2) →
      (0 < (setAll m l2).bucketCount ∧ (setAll m l2).maxLoadFactor = f ∧
        ∃ K2 : Nat, 1 ≤ K2 ∧
          f * ((setAll m l2).bucketCount : Rat) = (K2 : Rat) ∧
          (setAll m l2).size ≤ K2) by
    exact h l (mkHashMap c f)
      ⟨hc, rfl, K, hK1, hfc, Nat.zero_le K⟩
  intro l2
  induction l2 with
  | nil => intro m h; exact h
  | cons p rest ih =>
    intro m h
    exact ih _ (c2_step p.1 p.2 h)

/-! ### Bulk insertion of distinct keys -/

theorem setAll_spec {m : HashMap} (hInv : Inv m) (l : List (String × Value))
    (hnd : (l.map Prod.fst).Nodup)
    (hfresh : ∀ p ∈ l, ¬ HasKey m p.1) :
    Inv (setAll m l) ∧
    (setAll m l).size = m.size + l.length ∧
    (∀ p ∈ l, get (setAll m l) p.1 = p.2) ∧
    (∀ k', (∀ p ∈ l, p.1 ≠ k') →
      (get (setAll m l) k' = get m k' ∧
        (HasKey (setAll m l) k' ↔ HasKey m k'))) := by
  induction l generalizing m with
  | nil =>
    exact ⟨hInv, by simp [setAll], by simp, fun k' _ => ⟨rfl, Iff.rfl⟩⟩
  | cons p rest ih =>
    have hcons : setAll m (p :: rest) = setAll (set m p.1 p.2) rest := rfl
    have hkey_fresh : ¬ HasKey m p.1 := hfresh p (List.mem_cons_self p rest)
    have hnd2 : (p.1 :: rest.map Prod.fst).Nodup := by
      rw [List.map_cons] at hnd; exact hnd
    have hnd_rest : (rest.map Prod.fst).Nodup := (List.nodup_cons.mp hnd2).2
    have hp_notin : p.1 ∉ rest.map Prod.fst := (List.nodup_cons.mp hnd2).1
    have hInv1 : Inv (set m p.1 p.2) := set_Inv hInv p.1 p.2
    have hfresh1 : ∀ q ∈ rest, ¬ HasKey (set m p.1 p.2) q.1 := by
      intro q hq hkq
      rcases (set_hasKey hInv p.1 p.2 q.1).mp hkq with heq | hk
      · exact hp_notin (heq ▸ List.mem_map.mpr ⟨q, hq, rfl⟩)
      · exact hfresh q (List.mem_cons_of_mem _ hq) hk
    obtain ⟨ih1, ih2, ih3, ih4⟩ := ih hInv1 hnd_rest hfresh1
    refine ⟨hcons ▸ ih1, ?_, ?_, ?_⟩
    · rw [hcons, ih2, (set_spec hInv p.1 p.2).2.2.2.2.1 hkey_fresh]
      simp
      omega
    · intro q hq
      rcases List.mem_cons.mp hq with rfl | hq2
      · have hne : ∀ r ∈ rest, r.1 ≠ q.1 := by
          intro r hr heq
          exact hp_notin (heq ▸ List.mem_map.mpr ⟨r, hr, rfl⟩)
        rw [hcons, (ih4 q.1 hne).1]
        exact get_set_self hInv q.1 q.2
      · rw [hcons]
        exact ih3 q hq2
    · intro k' hk'
      have hne_p : p.1 ≠ k' := hk' p (List.mem_cons_self p rest)
      have h4 := ih4 k' (fun r hr => hk' r (List.mem_cons_of_mem _ hr))
      refine ⟨?_, ?_⟩
      · rw [hcons, h4.1]
        exact get_set_other hInv p.2 (Ne.symm hne_p)
      · rw [hcons]
        refine (h4.2).trans ?_
        rw [set_hasKey hInv p.1 p.2 k']
        constructor
        · rintro (heq | h)
          · exact absurd heq.symm hne_p
          · exact h
        · exact Or.inr

/-! ### Miscellaneous helpers for the claims -/

theorem has_false_of_get_null {m : HashMap} {k : String}
    (h : get m k = Value.null) : has m k = false := by
  simp [has, h]

theorem map_pair_eq_zip (l : List Entry) :
    l.map (fun e => (e.key, e.value)) =
      (l.map Entry.key).zip (l.map Entry.value) := by
  induction l with
  | nil => rfl
  | cons e rest ih => simp [ih]

/-! ## The claims -/

/-- C1: for every table state satisfying the data-model invariants, every
string key `k` and every value `v` other than the `null` sentinel,
`set(k, v)` followed by `get(k)` returns `v`. -/
theorem c1_set_then_get_returns_value (m : HashMap) (k : String) (v : Value)
    (hInv : Inv m) (_hv : v ≠ Value.null) :
    get (set m k v) k = v :=
  get_set_self hInv k v

theorem c1_witness :
    Value.str "Josh" ≠ Value.null ∧
    get (set (mkHashMap 16 (3/4)) "name" (Value.str "Josh")) "name" =
      Value.str "Josh" :=
  ⟨by decide,
    c1_set_then_get_returns_value _ _ _ (Inv_mk (3/4) (by decide)) (by decide)⟩

/-- C2 counterexample: with `initialBucketCount = 1` and
`maxLoadFactor = 1/2` — both within the claim's stated ranges — a single
`set` already leaves `length() / bucketCount = 1 > 1/2`, so the claimed
invariant fails as stated. -/
theorem c2_counterexample :
    0 < 1 ∧ (0 : Rat) < 1/2 ∧ (1/2 : Rat) ≤ 1 ∧
    ¬ ((length (set (mkHashMap 1 (1/2)) "a" (Value.str "x")) : Rat) /
        ((set (mkHashMap 1 (1/2)) "a" (Value.str "x")).bucketCount : Rat) ≤
        (set (mkHashMap 1 (1/2)) "a" (Value.str "x")).maxLoadFactor) := by
  refine ⟨by decide, by norm_num, by norm_num, ?_⟩
  have hg : ¬ (loadFactor (mkHashMap 1 (1/2)) ≥
      (mkHashMap 1 (1/2)).maxLoadFactor) := by
    rw [loadFactor]
    norm_num [mkHashMap]
  have hset : set (mkHashMap 1 (1/2)) "a" (Value.str "x") =
      setBody (mkHashMap 1 (1/2)) "a" (Value.str "x") := by
    unfold set; rw [if_neg hg]
  rw [hset]
  have h1 : length (setBody (mkHashMap 1 (1/2)) "a" (Value.str "x")) = 1 := rfl
  have h2 : (setBody (mkHashMap 1 (1/2)) "a" (Value.str "x")).bucketCount = 1 :=
    rfl
  have h3 : (setBody (mkHashMap 1 (1/2)) "a" (Value.str "x")).maxLoadFactor =
      1/2 := rfl
  rw [h1, h2, h3]
  norm_num

/-- C2 (amended): after any finite sequence of `set` calls, the invariant
`length() / bucketCount ≤ maxLoadFactor` holds at every observation point,
provided `maxLoadFactor * initialBucketCount` is an integer `K ≥ 1` (as with
the defaults `16` and `0.75`); the property is preserved across doubling
because `K` doubles with the bucket count.  Without that integrality
restriction the code can overshoot the threshold by one insertion. -/
theorem c2_load_factor_amended (c : Nat) (f : Rat) (K : Nat)
    (l : List (String × Value)) (hc : 0 < c) (hK1 : 1 ≤ K)
    (hfc : f * (c : Rat) = (K : Rat)) :
    (length (setAll (mkHashMap c f) l) : Rat) /
      ((setAll (mkHashMap c f) l).bucketCount : Rat) ≤
      (setAll (mkHashMap c f) l).maxLoadFactor := by
  obtain ⟨hpos, hml, K2, hK2, hfc2, hsz⟩ := c2_inv c f K hc hK1 hfc l
  have hcpos : (0 : Rat) < ((setAll (mkHashMap c f) l).bucketCount : Rat) := by
    exact_mod_cast hpos
  rw [length, hml, div_le_iff₀ hcpos, hfc2]
  exact_mod_cast hsz

theorem c2_witness :
    0 < 16 ∧ 1 ≤ 12 ∧ (3/4 : Rat) * ((16 : Nat) : Rat) = ((12 : Nat) : Rat) ∧
    (length (setAll (mkHashMap 16 (3/4)) [("a", Value.str "1")]) : Rat) /
      ((setAll (mkHashMap 16 (3/4)) [("a", Value.str "1")]).bucketCount : Rat) ≤
      (setAll (mkHashMap 16 (3/4)) [("a", Value.str "1")]).maxLoadFactor :=
  ⟨by decide, by decide, by norm_num,
    c2_load_factor_amended 16 (3/4) 12 [("a", Value.str "1")]
      (by decide) (by decide) (by norm_num)⟩

/-- C3: storing the `null` sentinel makes the key indistinguishable from an
absent key: after `set(k, null)`, `get(k)` returns `null` and `has(k)` is
`false`, exactly as `get`/`has` behave on any absent key. -/
theorem c3_null_sentinel_conflation (m m2 : HashMap) (k k2 : String)
    (hInv : Inv m) (habs : ¬ HasKey m2 k2) :
    get (set m k Value.null) k = Value.null ∧
    has (set m k Value.null) k = false ∧
    get m2 k2 = Value.null ∧
    has m2 k2 = false := by
  have h1 : get (set m k Value.null) k = Value.null :=
    get_set_self hInv k Value.null
  have h3 : get m2 k2 = Value.null := get_of_not_hasKey habs
  exact ⟨h1, has_false_of_get_null h1, h3, has_false_of_get_null h3⟩

theorem c3_witness :
    get (set (mkHashMap 16 (3/4)) "a" Value.null) "a" = Value.null ∧
    has (set (mkHashMap 16 (3/4)) "a" Value.null) "a" = false ∧
    get (mkHashMap 16 (3/4)) "b" = Value.null ∧
    has (mkHashMap 16 (3/4)) "b" = false :=
  c3_null_sentinel_conflation _ _ "a" "b" (Inv_mk (3/4) (by decide))
    (not_hasKey_mk 16 (3/4) "b")

/-- C4: inserting any number of distinct keys (in particular enough to force
two or more resizes) leaves every key retrievable with its value and
`length()` equal to the number of keys; moreover `resize` always doubles the
bucket count, keeps exactly the existing entries (as a permutation), and
re-hashes each entry into the bucket its key hashes to under the new
count. -/
theorem c4_bulk_insert_and_resize (c : Nat) (f : Rat)
    (l : List (String × Value)) (hc : 0 < c)
    (hnd : (l.map Prod.fst).Nodup) :
    length (setAll (mkHashMap c f) l) = l.length ∧
    (∀ p ∈ l, get (setAll (mkHashMap c f) l) p.1 = p.2) ∧
    (∀ m : HashMap, (resize m).bucketCount = 2 * m.bucketCount) ∧
    (∀ m : HashMap, 0 < m.bucketCount →
      List.Perm (toList (resize m)) (toList m)) ∧
    (∀ m : HashMap, 0 < m.bucketCount →
      ∀ i, ∀ e ∈ bucketAt (resize m).buckets i,
        hash e.key (resize m).bucketCount = i) := by
  obtain ⟨_, h2, h3, _⟩ := setAll_spec (Inv_mk f hc) l hnd
    (fun p _ => not_hasKey_mk c f p.1)
  refine ⟨?_, h3, fun m => by rw [resize_bucketCount]; ring,
    fun m hm => resize_perm m hm, fun m hm => resize_placed m hm⟩
  rw [length, h2]
  simp [mkHashMap]

theorem c4_witness :
    0 < 16 ∧
    (([("a", Value.num 1), ("b", Value.num 2)] :
        List (String × Value)).map Prod.fst).Nodup ∧
    (length (setAll (mkHashMap 16 (3/4))
        [("a", Value.num 1), ("b", Value.num 2)]) = 2 ∧
      (∀ p ∈ ([("a", Value.num 1), ("b", Value.num 2)] :
          List (String × Value)),
        get (setAll (mkHashMap 16 (3/4))
          [("a", Value.num 1), ("b", Value.num 2)]) p.1 = p.2) ∧
      (∀ m : HashMap, (resize m).bucketCount = 2 * m.bucketCount) ∧
      (∀ m : HashMap, 0 < m.bucketCount →
        List.Perm (toList (resize m)) (toList m)) ∧
      (∀ m : HashMap, 0 < m.bucketCount →
        ∀ i, ∀ e ∈ bucketAt (resize m).buckets i,
          hash e.key (resize m).bucketCount = i)) :=
  ⟨by decide, by decide,
    c4_bulk_insert_and_resize 16 (3/4) _ (by decide) (by decide)⟩

/-- C5: `set(k, v1); set(k, v2)` leaves `length()` unchanged from before the
second call and `get(k)` afterwards returns `v2` — updates overwrite in
place and never duplicate the key. -/
theorem c5_update_in_place (m : HashMap) (k : String) (v1 v2 : Value)
    (hInv : Inv m) :
    length (set (set m k v1) k v2) = length (set m k v1) ∧
    get (set (set m k v1) k v2) k = v2 := by
  have hInv1 := set_Inv hInv k v1
  have hhk : HasKey (set m k v1) k := ⟨v1, (set_spec hInv k v1).2.1⟩
  exact ⟨(set_spec hInv1 k v2).2.2.2.1 hhk, get_set_self hInv1 k v2⟩

theorem c5_witness :
    length (set (set (mkHashMap 4 (3/4)) "a" (Value.str "x")) "a"
        (Value.str "y")) =
      length (set (mkHashMap 4 (3/4)) "a" (Value.str "x")) ∧
    get (set (set (mkHashMap 4 (3/4)) "a" (Value.str "x")) "a"
        (Value.str "y")) "a" = Value.str "y" :=
  c5_update_in_place _ "a" _ _ (Inv_mk (3/4) (by decide))

/-- C6: on a present key `remove` returns `true`, decreases `length()` by
exactly one, and afterwards `get` yields the not-found signal and `has` is
`false`; on an absent key it returns `false` and leaves the table unchanged;
`remove` never changes the bucket count. -/
theorem c6_remove_semantics (m : HashMap) (k : String) (hInv : Inv m) :
    (HasKey m k →
      (remove m k).2 = true ∧
      (remove m k).1.size + 1 = m.size ∧
      get (remove m k).1 k = Value.null ∧
      has (remove m k).1 k = false ∧
      (remove m k).1.bucketCount = m.bucketCount) ∧
    (¬ HasKey m k → remove m k = (m, false)) := by
  obtain ⟨hpres, habs⟩ := remove_spec hInv k
  refine ⟨?_, habs⟩
  intro hk
  obtain ⟨h1, h2, h3, h4, h5⟩ := hpres hk
  have hget : get (remove m k).1 k = Value.null := get_of_not_hasKey h3
  exact ⟨h1, h2, hget, has_false_of_get_null hget, h5⟩

theorem c6_witness :
    (HasKey (set (mkHashMap 4 (3/4)) "a" (Value.str "x")) "a" →
      (remove (set (mkHashMap 4 (3/4)) "a" (Value.str "x")) "a").2 = true ∧
      (remove (set (mkHashMap 4 (3/4)) "a" (Value.str "x")) "a").1.size + 1 =
        (set (mkHashMap 4 (3/4)) "a" (Value.str "x")).size ∧
      get (remove (set (mkHashMap 4 (3/4)) "a" (Value.str "x")) "a").1 "a" =
        Value.null ∧
      has (remove (set (mkHashMap 4 (3/4)) "a" (Value.str "x")) "a").1 "a" =
        false ∧
      (remove (set (mkHashMap 4 (3/4)) "a" (Value.str "x")) "a").1.bucketCount =
        (set (mkHashMap 4 (3/4)) "a" (Value.str "x")).bucketCount) ∧
    (¬ HasKey (set (mkHashMap 4 (3/4)) "a" (Value.str "x")) "a" →
      remove (set (mkHashMap 4 (3/4)) "a" (Value.str "x")) "a" =
        (set (mkHashMap 4 (3/4)) "a" (Value.str "x"), false)) :=
  c6_remove_semantics _ "a" (set_Inv (Inv_mk (3/4) (by decide)) "a" _)

/-- C7: the hash function is the deterministic pure fold over the key's
characters with accumulator update `(31 * acc + code) % bucketCount`, and
for a positive bucket count its result lies in `[0, bucketCount)`. -/
theorem c7_hash_function (key : String) (buckets : Nat) (h : 0 < buckets) :
    hash key buckets =
      key.data.foldl (fun acc ch => (31 * acc + ch.toNat) % buckets) 0 ∧
    hash key buckets < buckets :=
  ⟨rfl, hash_lt key h⟩

theorem c7_witness :
    0 < 7 ∧
    (hash "abc" 7 =
        ("abc".data).foldl (fun acc ch => (31 * acc + ch.toNat) % 7) 0 ∧
      hash "abc" 7 < 7) :=
  ⟨by decide, c7_hash_function "abc" 7 (by decide)⟩

/-- C8 counterexample: the constructor performs no validation.  Called with
the malformed bucket count `0` it succeeds, returning a table that stores
`bucketCount = 0`, whereas the spec-mandated checked constructor
(`mkHashMapChecked`) rejects the same arguments. -/
theorem c8_counterexample :
    mkHashMap 0 (3/4) =
      { bucketCount := 0, buckets := [], size := 0, maxLoadFactor := 3/4 } ∧
    mkHashMapChecked 0 (3/4) = none := by
  constructor
  · rfl
  · simp [mkHashMapChecked]

/-- C8 (amended): construction with malformed arguments is *not* rejected —
the constructor stores whatever it is given, including a non-positive bucket
count or an out-of-range load factor, and later behavior is left to the
operations. -/
theorem c8_constructor_no_validation (c : Nat) (f : Rat) :
    (mkHashMap c f).bucketCount = c ∧
    (mkHashMap c f).maxLoadFactor = f ∧
    (mkHashMap c f).size = 0 ∧
    (mkHashMap c f).buckets = List.replicate c none :=
  ⟨rfl, rfl, rfl, rfl⟩

/-- C9: after `clear()` the table has `length() == 0`, all three enumeration
operations return empty sequences, and the bucket count is unchanged. -/
theorem c9_clear_resets (m : HashMap) :
    length (clear m) = 0 ∧
    keys (clear m) = [] ∧
    values (clear m) = [] ∧
    entries (clear m) = [] ∧
    (clear m).bucketCount = m.bucketCount := by
  have htl : toList (clear m) = [] := by
    rw [toList]
    show allEntries (m.buckets.map fun _ => none) = []
    exact allEntries_map_none m.buckets
  exact ⟨rfl, by rw [keys_eq, htl]; rfl, by rw [values_eq, htl]; rfl,
    by rw [entries_eq, htl]; rfl, rfl⟩

/-- C10: with no intervening mutation, `keys()`, `values()` and `entries()`
all have length `length()` and agree pointwise — `entries()` is exactly the
zip of `keys()` with `values()`, because all three walk the buckets in the
same order. -/
theorem c10_enumeration_consistency (m : HashMap) (hInv : Inv m) :
    entries m = (keys m).zip (values m) ∧
    (keys m).length = length m ∧
    (values m).length = length m ∧
    (entries m).length = length m := by
  refine ⟨?_, ?_, ?_, ?_⟩
  · rw [entries_eq, keys_eq, values_eq]
    exact map_pair_eq_zip _
  · rw [keys_eq, List.length_map]
    exact hInv.size_eq.symm
  · rw [values_eq, List.length_map]
    exact hInv.size_eq.symm
  · rw [entries_eq, List.length_map]
    exact hInv.size_eq.symm

theorem c10_witness :
    entries (set (mkHashMap 4 (3/4)) "a" (Value.num 1)) =
      (keys (set (mkHashMap 4 (3/4)) "a" (Value.num 1))).zip
        (values (set (mkHashMap 4 (3/4)) "a" (Value.num 1))) ∧
    (keys (set (mkHashMap 4 (3/4)) "a" (Value.num 1))).length =
      length (set (mkHashMap 4 (3/4)) "a" (Value.num 1)) ∧
    (values (set (mkHashMap 4 (3/4)) "a" (Value.num 1))).length =
      length (set (mkHashMap 4 (3/4)) "a" (Value.num 1)) ∧
    (entries (set (mkHashMap 4 (3/4)) "a" (Value.num 1))).length =
      length (set (mkHashMap 4 (3/4)) "a" (Value.num 1)) :=
  c10_enumeration_consistency _ (set_Inv (Inv_mk (3/4) (by decide)) "a" _)

end OdinHashMap
